import Mathlib

/-!
Verification of the wdm dependency manager (src/main.rs) against its
natural-language specification.  The Rust code is shallowly embedded:
pure helpers become Lean functions, and the effectful `install` loop
becomes a function over an explicit environment of external results
(resolution, download, filesystem) together with an observable trace.
-/

namespace Wdm

instance {ε α : Type} [DecidableEq ε] [DecidableEq α] : DecidableEq (Except ε α) := fun a b =>
  match a, b with
  | Except.ok x, Except.ok y => decidable_of_iff (x = y) (by simp)
  | Except.error x, Except.error y => decidable_of_iff (x = y) (by simp)
  | Except.ok _, Except.error _ => isFalse (by simp)
  | Except.error _, Except.ok _ => isFalse (by simp)

/-! ## Semantic versions (model of the `semver` crate types used by the code)

The code relies on `semver::Version` for tag parsing, membership tests and
ordering (`src/main.rs` lines 547, 559, 564-577).  We embed the crate's
`Version`: a prerelease is a list of dot-separated identifiers, numeric
identifiers being distinguished from alphanumeric ones; build metadata is
kept as raw identifiers. -/

/-- Prerelease identifier: all-digit identifiers are numeric (and may not
have leading zeros), anything else is alphanumeric. -/
inductive PreId where
  | num (n : Nat)
  | str (s : String)
deriving DecidableEq

/-- A parsed semantic version, mirroring `semver::Version`. -/
structure Version where
  major : Nat
  minor : Nat
  patch : Nat
  pre : List PreId
  build : List String
deriving DecidableEq

instance : Inhabited Version := ⟨⟨0, 0, 0, [], []⟩⟩

/-- Numeric value of a digit string. -/
def digitsToNat (ds : List Char) : Nat :=
  ds.foldl (fun a c => a * 10 + (c.toNat - 48)) 0

/-- Parse a numeric identifier (nonempty digit run, no leading zeros) at the
front of the input; return the value and the remaining characters. -/
def takeNum (l : List Char) : Option (Nat × List Char) :=
  let ds := l.takeWhile (·.isDigit)
  let rest := l.dropWhile (·.isDigit)
  if ds.isEmpty then none
  else if ds.length > 1 && ds.head? == some '0' then none
  else some (digitsToNat ds, rest)

/-- Expect a literal dot. -/
def expectDot : List Char → Option (List Char)
  | '.' :: r => some r
  | _ => none

/-- Split a character list on a separator, keeping empty pieces. -/
def splitChar (sep : Char) : List Char → List (List Char)
  | [] => [[]]
  | c :: rest =>
    let r := splitChar sep rest
    if c = sep then [] :: r
    else
      match r with
      | [] => [[c]]
      | h :: t => (c :: h) :: t

/-- Characters allowed in prerelease/build identifiers: `[0-9A-Za-z-]`. -/
def isIdentChar (c : Char) : Bool := c.isAlphanum || c == '-'

/-- Classify one prerelease identifier (as the `semver` crate does):
nonempty, identifier characters only, all-digit identifiers are numeric and
may not have leading zeros. -/
def classifyPre (ident : List Char) : Option PreId :=
  if ident.isEmpty then none
  else if !(ident.all isIdentChar) then none
  else if ident.all (·.isDigit) then
    if ident.length > 1 && ident.head? == some '0' then none
    else some (PreId.num (digitsToNat ident))
  else some (PreId.str ⟨ident⟩)

/-- Classify one build identifier: nonempty, identifier characters only
(leading zeros are allowed in build metadata). -/
def classifyBuild (ident : List Char) : Option String :=
  if ident.isEmpty then none
  else if !(ident.all isIdentChar) then none
  else some ⟨ident⟩

/-- Parse the prerelease part (after `-`, before any `+`). -/
def parsePre (l : List Char) : Option (List PreId) :=
  (splitChar '.' l).mapM classifyPre

/-- Parse the build-metadata part (after `+`). -/
def parseBuild (l : List Char) : Option (List String) :=
  (splitChar '.' l).mapM classifyBuild

/-- Parser core for `semver::Version::parse` on a character list:
`major.minor.patch` with optional `-prerelease` and `+build`. -/
def parseChars (l : List Char) : Option Version := do
  let (maj, r1) ← takeNum l
  let r2 ← expectDot r1
  let (mnr, r3) ← takeNum r2
  let r4 ← expectDot r3
  let (pat, r5) ← takeNum r4
  match r5 with
  | [] => some ⟨maj, mnr, pat, [], []⟩
  | '-' :: t =>
    let preChars := t.takeWhile (· ≠ '+')
    let rest := t.dropWhile (· ≠ '+')
    let pre ← parsePre preChars
    match rest with
    | [] => some ⟨maj, mnr, pat, pre, []⟩
    | '+' :: b => do
      let bd ← parseBuild b
      some ⟨maj, mnr, pat, pre, bd⟩
    | _ => none
  | '+' :: b => do
    let bd ← parseBuild b
    some ⟨maj, mnr, pat, [], bd⟩
  | _ => none

/-- Model of `semver::Version::parse`. -/
def Version.parse (s : String) : Option Version := parseChars s.data

/-- Rendering of a prerelease identifier. -/
def preIdToString : PreId → String
  | PreId.num n => toString n
  | PreId.str s => s

/-- Model of the `Display` implementation of `semver::Version`
(`major.minor.patch`, then `-pre` and `+build` when present). -/
def Version.toDisplay (v : Version) : String :=
  toString v.major ++ "." ++ toString v.minor ++ "." ++ toString v.patch
    ++ (if v.pre.isEmpty then "" else "-" ++ String.intercalate "." (v.pre.map preIdToString))
    ++ (if v.build.isEmpty then "" else "+" ++ String.intercalate "." v.build)

/-- `format!("v{}", version)` as used by `resolve_github_version`
(src/main.rs lines 563, 566, 578). -/
def fmtV (v : Version) : String := "v" ++ v.toDisplay

/-! ## Version precedence (model of `Ord for semver::Version`)

The crate compares major, minor, patch, then prerelease (numeric below
alphanumeric, a release above any prerelease, fewer fields below more on an
equal prefix) and finally build metadata identifier-wise (all-digit
identifiers numerically, i.e. by length then lexically). -/

/-- Three-way comparison from a linear order. -/
def cmpLO {α : Type} [LinearOrder α] (a b : α) : Ordering :=
  if a < b then Ordering.lt else if a = b then Ordering.eq else Ordering.gt

/-- Comparison of prerelease identifiers: numeric below alphanumeric,
numeric by value, alphanumeric lexically. -/
def preIdCmp : PreId → PreId → Ordering
  | PreId.num a, PreId.num b => cmpLO a b
  | PreId.num _, PreId.str _ => Ordering.lt
  | PreId.str _, PreId.num _ => Ordering.gt
  | PreId.str a, PreId.str b => cmpLO a b

/-- Lexicographic list comparison (a strict prefix is smaller). -/
def listCmp {α : Type} (c : α → α → Ordering) : List α → List α → Ordering
  | [], [] => Ordering.eq
  | [], _ :: _ => Ordering.lt
  | _ :: _, [] => Ordering.gt
  | a :: as, b :: bs => (c a b).then (listCmp c as bs)

/-- Prerelease precedence: a release (empty prerelease) is above every
prerelease; otherwise identifier-wise comparison. -/
def preCmp (a b : List PreId) : Ordering :=
  match a, b with
  | [], [] => Ordering.eq
  | [], _ :: _ => Ordering.gt
  | _ :: _, [] => Ordering.lt
  | _, _ => listCmp preIdCmp a b

/-- Whether a build identifier is all digits. -/
def isDigitsStr (s : String) : Bool := !s.isEmpty && s.data.all (·.isDigit)

/-- Comparison of build identifiers: all-digit identifiers numerically
(by length, then lexically, which handles leading zeros), digits below
alphanumerics, otherwise lexical. -/
def buildIdCmp (a b : String) : Ordering :=
  if isDigitsStr a then
    if isDigitsStr b then (cmpLO a.length b.length).then (cmpLO a b)
    else Ordering.lt
  else if isDigitsStr b then Ordering.gt
  else cmpLO a b

/-- Lexicographic comparison on pairs. -/
def prodCmp {α β : Type} (c₁ : α → α → Ordering) (c₂ : β → β → Ordering)
    (a b : α × β) : Ordering :=
  (c₁ a.1 b.1).then (c₂ a.2 b.2)

/-- The sort key of a version: all fields, in precedence order. -/
def vkey (v : Version) : Nat × Nat × Nat × List PreId × List String :=
  (v.major, v.minor, v.patch, v.pre, v.build)

/-- Comparator on the sort key. -/
def vkeyCmp : Nat × Nat × Nat × List PreId × List String →
    Nat × Nat × Nat × List PreId × List String → Ordering :=
  prodCmp cmpLO (prodCmp cmpLO (prodCmp cmpLO (prodCmp preCmp (listCmp buildIdCmp))))

/-- Model of `semver::Version::cmp`. -/
def versionCmp (a b : Version) : Ordering := vkeyCmp (vkey a) (vkey b)

/-- `a ≤ b` in version precedence. -/
def Version.le (a b : Version) : Prop := versionCmp a b ≠ Ordering.gt

instance : DecidableRel Version.le := fun a b =>
  decidable_of_iff (versionCmp a b ≠ Ordering.gt) Iff.rfl

/-- `a ≥ b`, the relation the install sort uses
(`versions.sort_by(|a, b| b.cmp(a))`, src/main.rs line 559). -/
def vge (a b : Version) : Prop := Version.le b a

instance : DecidableRel vge := fun a b =>
  decidable_of_iff (versionCmp b a ≠ Ordering.gt) Iff.rfl

/-! ### Lawfulness of the comparators -/

/-- A comparator that is antisymmetric under `swap`, whose `eq` answers
characterise equality, and whose strict part is transitive. -/
structure LawCmp {α : Type} (c : α → α → Ordering) : Prop where
  symm : ∀ a b, c a b = (c b a).swap
  eq_iff : ∀ a b, c a b = Ordering.eq ↔ a = b
  lt_trans : ∀ {a b d}, c a b = Ordering.lt → c b d = Ordering.lt → c a d = Ordering.lt


/-- `versions.sort_by(|a, b| b.cmp(a))` (src/main.rs line 559): a stable
sort into descending precedence order. -/
def sortDesc (l : List Version) : List Version := l.insertionSort vge

/-! ## Tag enumeration (src/main.rs lines 537-552)

`git ls-remote --tags` output is parsed line by line: the part after the
first tab must start with `refs/tags/`; the tag then has any trailing
annotated-tag markers `{caret}{lbrace}{rbrace}` removed
(`trim_end_matches`), any leading `v` characters removed
(`trim_start_matches`), and the remainder is given to `Version::parse`. -/

/-- `trim_start_matches('v')`: drop every leading `v`. -/
def trimStartV (s : String) : String := ⟨s.data.dropWhile (· == 'v')⟩

/-- Drop leading repetitions of the reversed annotation marker from a
reversed character list (one step per trailing marker of the original). -/
def dropAnnRev : List Char → List Char
  | '\x7d' :: '\x7b' :: '^' :: rest => dropAnnRev rest
  | l => l

/-- `trim_end_matches` of the annotated-tag marker. -/
def trimAnn (s : String) : String := ⟨(dropAnnRev s.data.reverse).reverse⟩

/-- The per-tag step of the resolver (src/main.rs lines 546-549). -/
def tagToVersion (tag : String) : Option Version :=
  Version.parse (trimStartV (trimAnn tag))

/-- The spec's description of the per-tag step: "strip any non-digit
leading characters and attempt to parse the remainder as a semantic
version".  Used only to compare the specification against the code. -/
def specTagToVersion (tag : String) : Option Version :=
  Version.parse ⟨tag.data.dropWhile (fun c => !c.isDigit)⟩

/-- Everything after the first tab of a line. -/
def afterFirstTab : List Char → Option (List Char)
  | [] => none
  | c :: rest => if c = '\t' then some rest else afterFirstTab rest

/-- `strip_prefix` on character lists. -/
def dropPfxChars : List Char → List Char → Option (List Char)
  | [], l => some l
  | _ :: _, [] => none
  | p :: ps, c :: cs => if p = c then dropPfxChars ps cs else none

/-- Extract the tag name from one `ls-remote` line
(`<hash>\trefs/tags/<tag>`). -/
def parseTagLine (line : String) : Option String := do
  let rest ← afterFirstTab line.data
  let tag ← dropPfxChars "refs/tags/".data rest
  some ⟨tag⟩

/-- Drop one trailing carriage return (as Rust's `str::lines` does). -/
def dropCR (l : List Char) : List Char :=
  match l.reverse with
  | '\r' :: r => r.reverse
  | _ => l

/-- Split into lines.  (Rust's `lines` also drops a final empty piece; an
empty line has no tab, so it contributes nothing downstream either way.) -/
def splitLines (s : String) : List String :=
  (splitChar '\n' s.data).map (fun l => ⟨dropCR l⟩)

/-- Model of the tag-collection loop (src/main.rs lines 538-552): the
parseable versions of the listed tags, in listing order. -/
def parseTagsOutput (stdout : String) : List Version :=
  (splitLines stdout).filterMap (fun line => (parseTagLine line).bind tagToVersion)

/-! ## Version resolution (src/main.rs lines 554-585)

The decision core of `resolve_github_version`, after the tag listing has
been parsed.  `semver::VersionReq::parse` followed by `matches` is the
external requirement-evaluation of the semver crate; it is abstracted as a
function producing a match predicate when the requirement text is a valid
range expression. -/

/-- Model of src/main.rs lines 554-585: empty-version check, descending
sort, then the `latest` / exact / range dispatch. -/
def resolveFromVersions (reqParse : String → Option (Version → Bool))
    (versions : List Version) (versionReq : String) : Except String String :=
  if versions.isEmpty then
    Except.error "No valid versions found in repository tags."
  else
    let sorted := sortDesc versions
    if versionReq = "latest" then Except.ok (fmtV sorted.headI)
    else
      match Version.parse versionReq with
      | some specific =>
        if specific ∈ versions then Except.ok (fmtV specific)
        else Except.error ("Version " ++ versionReq ++ " not found in repository tags")
      | none =>
        match reqParse versionReq with
        | none => Except.error ("Invalid version requirement " ++ versionReq)
        | some mtch =>
          match sorted.find? mtch with
          | some v => Except.ok (fmtV v)
          | none => Except.error ("No matching version found for requirement " ++ versionReq)

/-- `resolve_github_version` given the raw stdout of
`git ls-remote --tags` (the one effectful input of the function). -/
def resolveGithubVersion (reqParse : String → Option (Version → Bool))
    (stdout : String) (versionReq : String) : Except String String :=
  resolveFromVersions reqParse (parseTagsOutput stdout) versionReq

/-- Matcher of the requirement `^1.0.0` as evaluated by the semver crate:
same major version, at least `1.0.0`, and no prerelease (a caret
comparator without prerelease never matches prerelease versions). -/
def caret100 : Version → Bool := fun v =>
  decide (v.major = 1 ∧ Version.le ⟨1, 0, 0, [], []⟩ v ∧ v.pre = [])

/-! ## Archive entry paths (src/main.rs lines 264-310)

Zip entry names are paths; `enclosed_name` (zip crate) rejects absolute
paths, NUL bytes and traversal below the root, and the result is then
`Path::strip_prefix`-ed against `<repo-short-name>-<version-without-v>`.
Paths are modelled as their `Path::components`. -/

/-- One path component, as in `std::path::Component` (prefix and root
components never survive `enclosed_name`). -/
inductive PathComp where
  | curDir
  | parentDir
  | normal (s : String)
deriving DecidableEq

/-- Component of one nonempty path segment. -/
def compOfSeg (p : String) : PathComp :=
  if p = ".." then PathComp.parentDir else PathComp.normal p

/-- The `/`-separated segments of a string (`str::split('/')`). -/
def segsOf (s : String) : List String := (splitChar '/' s.data).map (fun l => ⟨l⟩)

/-- `Path::components` of a relative path string: empty segments dropped,
`.` kept only as a leading component. -/
def pathComps (s : String) : List PathComp :=
  match (segsOf s).filter (fun p => decide (p ≠ "")) with
  | [] => []
  | p :: rest =>
    (if p = "." then PathComp.curDir else compOfSeg p)
      :: (rest.filter (fun q => decide (q ≠ "."))).map compOfSeg

/-- The depth check of `ZipFile::enclosed_name`: a `..` may never take the
path above its root. -/
def depthOk : List PathComp → Nat → Bool
  | [], _ => true
  | PathComp.curDir :: r, d => depthOk r d
  | PathComp.normal _ :: r, d => depthOk r (d + 1)
  | PathComp.parentDir :: r, d =>
    match d with
    | 0 => false
    | d' + 1 => depthOk r d'

/-- Model of `ZipFile::enclosed_name`, returning the path's components. -/
def enclosedComps (s : String) : Option (List PathComp) :=
  if s.data.head? == some '/' then none
  else if s.data.contains '\x00' then none
  else if depthOk (pathComps s) 0 then some (pathComps s) else none

/-- `Path::strip_prefix`, component-wise. -/
def stripComps : List PathComp → List PathComp → Option (List PathComp)
  | [], rest => some rest
  | _ :: _, [] => none
  | b :: bs, c :: cs => if b = c then stripComps bs cs else none

/-- `dep.repo.split('/').last()` (src/main.rs line 274). -/
def repoShortName (repo : String) : String := (segsOf repo).getLastD ""

/-- `format!("{}-{}", repo_name, version_no_v)` (src/main.rs lines 275-276):
the synthetic root folder stripped from every entry. -/
def rootPfx (repo version : String) : String :=
  repoShortName repo ++ "-" ++ trimStartV version

/-- A zip entry of the downloaded archive: its stored name, and whether
the filesystem writes for it succeed (`create_dir_all` / `File::create` /
`io::copy`). -/
structure ZipEntry where
  name : String
  writeOk : Bool
deriving DecidableEq

/-- The destination of an entry relative to the plugin directory:
`enclosed_name` then `strip_prefix` of the synthetic root
(src/main.rs lines 272-278); `none` means the entry is skipped with an
"Invalid file path" message. -/
def entryDest (repo version : String) (e : ZipEntry) : Option (List PathComp) :=
  (enclosedComps e.name).bind (stripComps (pathComps (rootPfx repo version)))

/-- `file.name().ends_with('/')` (src/main.rs line 286): directory entry. -/
def isDirEntry (e : ZipEntry) : Bool := e.name.data.getLast? == some '/'

/-- The files written by the extraction loop (src/main.rs lines 264-310),
as paths relative to the plugin directory: skipped entries, directory
entries and entries whose write fails produce no file. -/
def extractFiles (repo version : String) (entries : List ZipEntry) :
    List (List PathComp) :=
  entries.filterMap (fun e =>
    match entryDest repo version e with
    | none => none
    | some dest => if isDirEntry e then none else if e.writeOk then some dest else none)

/-! ## Manifest, lockfile and the add / remove commands -/

/-- A manifest dependency (struct `Dependency`, src/main.rs lines 52-61). -/
structure Dependency where
  name : String
  version : String
  repo : String
  tokenEnv : Option String
deriving DecidableEq

/-- A lockfile entry (struct `LockedDependency`, src/main.rs lines 68-74). -/
structure LockedDependency where
  name : String
  version : String
  repo : String
  hash : String
deriving DecidableEq

/-- The manifest (struct `Config`, src/main.rs lines 41-50). -/
structure Config where
  wordpressPath : Option String
  dependencies : List Dependency
deriving DecidableEq

/-- On-disk project state touched by the commands: `wdm.yml`, `wdm.lock`,
and the installed plugin directories (name, files). -/
structure ProjectState where
  manifest : Config
  lockfile : List LockedDependency
  installedDirs : List (String × List (List PathComp))
deriving DecidableEq

/-- `str::trim`: whitespace removed from both ends. -/
def trimChars (l : List Char) : List Char :=
  ((l.dropWhile Char.isWhitespace).reverse.dropWhile Char.isWhitespace).reverse

/-- `str::trim` on strings. -/
def trimStr (s : String) : String := ⟨trimChars s.data⟩

/-- `str::to_lowercase` (character-wise lowercasing). -/
def lowerStr (s : String) : String := ⟨s.data.map Char.toLower⟩

/-- Name normalisation of the `add` command (src/main.rs line 119):
`name.trim().to_lowercase()`. -/
def normalizeName (s : String) : String := lowerStr (trimStr s)

/-- The manifest edit of `add` (src/main.rs lines 118-151): drop every
dependency whose normalised name matches, then push the trimmed new entry;
the returned flag reports whether an entry existed. -/
def addDependency (cfg : Config) (name version repo : String)
    (tok : Option String) : Config × Bool :=
  let normalized := normalizeName name
  let kept := cfg.dependencies.filter (fun d => decide (normalizeName d.name ≠ normalized))
  (⟨cfg.wordpressPath, kept ++ [⟨trimStr name, trimStr version, trimStr repo, tok⟩]⟩,
    decide (kept.length < cfg.dependencies.length))

/-- The `remove` command (src/main.rs lines 158-176): retain manifest
dependencies whose name differs exactly; lockfile and installed files are
not touched (the code only notes "Optionally, add code to remove the
plugin from the wordpress_path").  The flag reports whether a dependency
was found. -/
def removeCommand (st : ProjectState) (name : String) : ProjectState × Bool :=
  let kept := st.manifest.dependencies.filter (fun d => decide (d.name ≠ name))
  (⟨⟨st.manifest.wordpressPath, kept⟩, st.lockfile, st.installedDirs⟩,
    decide (kept.length < st.manifest.dependencies.length))

/-! ## The install loop (src/main.rs lines 178-329)

External effects are collected in an environment: resolution and download
outcomes, directory existence, cache-write success, zip parsing, the
SHA-256 digest, and the initial cache contents (which the loop never
reads).  The loop's observable behaviour is the final lockfile plus a
trace of network calls, cache writes and extracted files.  An I/O error on
the cache write propagates with `?` (src/main.rs line 252) and aborts the
whole run before the lockfile write (line 325). -/

/-- Environment of external results for one install run. -/
structure Env where
  resolve : Dependency → Except String String
  download : String → String → Except String (List Nat)
  dirExists : String → Bool
  cacheWriteOk : String → Bool
  zipOpen : List Nat → Except String (List ZipEntry)
  hashHex : List Nat → String
  cache : List (String × List Nat)

/-- The run-fatal abort: the propagated `io::Error` of the cache write. -/
inductive RunAbort where
  | ioWrite (cacheFile : String)
deriving DecidableEq

/-- `format!("{}.zip", dep.name)` (src/main.rs line 251): the cache file
name, derived from the dependency name only. -/
def cacheZipName (depName : String) : String := depName ++ ".zip"

/-- Per-dependency outcome observed by the loop. -/
structure DepResult where
  lockUpdate : Option LockedDependency
  networkCalled : Bool
  cacheWrite : Option (String × List Nat)
  files : List (List PathComp)
deriving DecidableEq

/-- One iteration of the install loop (src/main.rs lines 212-322):
resolve, download, skip when the plugin directory exists, write the cache
(`?` on failure), open the zip, extract, and produce the new lock entry
with the digest of the downloaded bytes. -/
def runDep (env : Env) (dep : Dependency) : Except RunAbort DepResult :=
  match env.resolve dep with
  | Except.error _ => Except.ok ⟨none, false, none, []⟩
  | Except.ok version =>
    match env.download dep.repo version with
    | Except.error _ => Except.ok ⟨none, true, none, []⟩
    | Except.ok bytes =>
      if env.dirExists dep.name then Except.ok ⟨none, true, none, []⟩
      else if !env.cacheWriteOk dep.name then
        Except.error (RunAbort.ioWrite (cacheZipName dep.name))
      else
        match env.zipOpen bytes with
        | Except.error _ => Except.ok ⟨none, true, some (cacheZipName dep.name, bytes), []⟩
        | Except.ok entries =>
          Except.ok ⟨some ⟨dep.name, version, dep.repo, env.hashHex bytes⟩, true,
            some (cacheZipName dep.name, bytes), extractFiles dep.repo version entries⟩

/-- Observable result of a completed install run: the lockfile as written
(src/main.rs line 325) and the trace of the loop. -/
structure RunResult where
  lockfile : List LockedDependency
  networkCalls : List String
  cacheWrites : List (String × List Nat)
  installed : List (String × List (List PathComp))
deriving DecidableEq

/-- The loop over the manifest dependencies, threading the in-memory
lockfile: an entry is retained-and-replaced only on a successful
extraction (src/main.rs lines 312-319). -/
def installLoop (env : Env) : List Dependency → List LockedDependency →
    Except RunAbort RunResult
  | [], lock => Except.ok ⟨lock, [], [], []⟩
  | dep :: rest, lock =>
    match runDep env dep with
    | Except.error e => Except.error e
    | Except.ok r =>
      let lock' :=
        match r.lockUpdate with
        | none => lock
        | some entry => lock.filter (fun d => decide (d.name ≠ dep.name)) ++ [entry]
      match installLoop env rest lock' with
      | Except.error e => Except.error e
      | Except.ok res =>
        Except.ok ⟨res.lockfile,
          (if r.networkCalled then [dep.name] else []) ++ res.networkCalls,
          r.cacheWrite.toList ++ res.cacheWrites,
          (dep.name, r.files) :: res.installed⟩

/-- The `install` command on a parsed manifest and lockfile
(src/main.rs lines 178-329). -/
def installRun (env : Env) (cfg : Config) (lock : List LockedDependency) :
    Except RunAbort RunResult :=
  installLoop env cfg.dependencies lock


/-! ## Theorems -/

theorem LawCmp.refl_eq {α : Type} {c : α → α → Ordering} (h : LawCmp c) (a : α) :
    c a a = Ordering.eq := (h.eq_iff a a).2 rfl

theorem LawCmp.gt_iff_lt {α : Type} {c : α → α → Ordering} (h : LawCmp c) (a b : α) :
    c a b = Ordering.gt ↔ c b a = Ordering.lt := by
  rw [h.symm a b]
  cases c b a <;> simp [Ordering.swap]

theorem LawCmp.le_trans {α : Type} {c : α → α → Ordering} (h : LawCmp c) {a b d : α}
    (hab : c a b ≠ Ordering.gt) (hbd : c b d ≠ Ordering.gt) : c a d ≠ Ordering.gt := by
  rcases hab' : c a b with _ | _ | _
  · rcases hbd' : c b d with _ | _ | _
    · exact fun hg => by simp [h.lt_trans hab' hbd'] at hg
    · have : b = d := (h.eq_iff b d).1 hbd'
      subst this
      simp [hab']
    · exact absurd hbd' hbd
  · have : a = b := (h.eq_iff a b).1 hab'
    subst this
    exact hbd
  · exact absurd hab' hab

theorem LawCmp.le_total {α : Type} {c : α → α → Ordering} (h : LawCmp c) (a b : α) :
    c a b ≠ Ordering.gt ∨ c b a ≠ Ordering.gt := by
  rcases hab : c a b with _ | _ | _
  · exact Or.inl (by simp [hab])
  · exact Or.inl (by simp [hab])
  · refine Or.inr ?_
    have : c b a = Ordering.lt := (h.gt_iff_lt a b).1 hab
    simp [this]

theorem lawCmp_cmpLO {α : Type} [LinearOrder α] : LawCmp (cmpLO (α := α)) := by
  refine ⟨?_, ?_, ?_⟩
  · intro a b
    unfold cmpLO
    rcases lt_trichotomy a b with hlt | heq | hgt
    · rw [if_pos hlt, if_neg (not_lt.2 hlt.le), if_neg hlt.ne']
      rfl
    · subst heq
      simp [lt_irrefl, Ordering.swap]
    · rw [if_neg (not_lt.2 hgt.le), if_neg hgt.ne', if_pos hgt]
      rfl
  · intro a b
    unfold cmpLO
    rcases lt_trichotomy a b with hlt | heq | hgt
    · rw [if_pos hlt]
      simp [hlt.ne]
    · subst heq
      simp [lt_irrefl]
    · rw [if_neg (not_lt.2 hgt.le), if_neg hgt.ne']
      simp [hgt.ne']
  · intro a b d hab hbd
    unfold cmpLO at hab hbd ⊢
    have h₁ : a < b := by
      by_contra h
      rw [if_neg h] at hab
      by_cases he : a = b
      · rw [if_pos he] at hab
        exact absurd hab (by decide)
      · rw [if_neg he] at hab
        exact absurd hab (by decide)
    have h₂ : b < d := by
      by_contra h
      rw [if_neg h] at hbd
      by_cases he : b = d
      · rw [if_pos he] at hbd
        exact absurd hbd (by decide)
      · rw [if_neg he] at hbd
        exact absurd hbd (by decide)
    rw [if_pos (h₁.trans h₂)]

theorem lawCmp_preIdCmp : LawCmp preIdCmp := by
  have hn := lawCmp_cmpLO (α := Nat)
  have hs := lawCmp_cmpLO (α := String)
  refine ⟨?_, ?_, ?_⟩
  · intro a b
    cases a <;> cases b
    · exact hn.symm _ _
    · rfl
    · rfl
    · exact hs.symm _ _
  · intro a b
    cases a <;> cases b <;> simp [preIdCmp, hn.eq_iff, hs.eq_iff]
  · intro a b d hab hbd
    cases a <;> cases b <;> cases d <;> simp_all [preIdCmp]
    · exact hn.lt_trans hab hbd
    · exact hs.lt_trans hab hbd

theorem Ordering.then_eq_eq {o p : Ordering} :
    o.then p = Ordering.eq ↔ o = Ordering.eq ∧ p = Ordering.eq := by
  cases o <;> simp [Ordering.then]

theorem Ordering.then_swap (o p : Ordering) : (o.then p).swap = o.swap.then p.swap := by
  cases o <;> simp [Ordering.then, Ordering.swap]

theorem Ordering.then_eq_lt {o p : Ordering} :
    o.then p = Ordering.lt ↔ o = Ordering.lt ∨ (o = Ordering.eq ∧ p = Ordering.lt) := by
  cases o <;> simp [Ordering.then]

theorem lawCmp_listCmp {α : Type} {c : α → α → Ordering} (h : LawCmp c) :
    LawCmp (listCmp c) := by
  refine ⟨?_, ?_, ?_⟩
  · intro a
    induction a with
    | nil => intro b; cases b <;> simp [listCmp, Ordering.swap]
    | cons x xs ih =>
      intro b
      cases b with
      | nil => simp [listCmp, Ordering.swap]
      | cons y ys =>
        simp only [listCmp]
        rw [Ordering.then_swap, ← h.symm, ← ih]
  · intro a
    induction a with
    | nil => intro b; cases b <;> simp [listCmp]
    | cons x xs ih =>
      intro b
      cases b with
      | nil => simp [listCmp]
      | cons y ys =>
        simp only [listCmp, Ordering.then_eq_eq, h.eq_iff, ih, List.cons.injEq]
  · intro a
    induction a with
    | nil =>
      intro b d hab hbd
      cases b with
      | nil => exact hbd
      | cons y ys =>
        cases d with
        | nil => simp [listCmp] at hbd
        | cons z zs => simp [listCmp]
    | cons x xs ih =>
      intro b d hab hbd
      cases b with
      | nil => simp [listCmp] at hab
      | cons y ys =>
        cases d with
        | nil => simp [listCmp] at hbd
        | cons z zs =>
          simp only [listCmp, Ordering.then_eq_lt] at hab hbd ⊢
          rcases hab with hxy | ⟨hxy, hrest⟩
          · rcases hbd with hyz | ⟨hyz, hrest'⟩
            · exact Or.inl (h.lt_trans hxy hyz)
            · have : y = z := (h.eq_iff y z).1 hyz
              subst this
              exact Or.inl hxy
          · have : x = y := (h.eq_iff x y).1 hxy
            subst this
            rcases hbd with hyz | ⟨hyz, hrest'⟩
            · exact Or.inl hyz
            · exact Or.inr ⟨hyz, ih hrest hrest'⟩

theorem lawCmp_preCmp : LawCmp preCmp := by
  have hl := lawCmp_listCmp lawCmp_preIdCmp
  refine ⟨?_, ?_, ?_⟩
  · intro a b
    cases a <;> cases b
    · rfl
    · rfl
    · rfl
    · exact hl.symm _ _
  · intro a b
    rcases a with _ | ⟨x, xs⟩ <;> rcases b with _ | ⟨y, ys⟩
    · simp [preCmp]
    · simp [preCmp]
    · simp [preCmp]
    · simpa [preCmp] using hl.eq_iff (x :: xs) (y :: ys)
  · intro a b d hab hbd
    cases a with
    | nil =>
      cases b with
      | nil => exact hbd
      | cons y ys => simp [preCmp] at hab
    | cons x xs =>
      cases d with
      | nil =>
        cases b <;> simp [preCmp]
      | cons z zs =>
        cases b with
        | nil => simp [preCmp] at hbd
        | cons y ys =>
          simp only [preCmp] at hab hbd ⊢
          exact hl.lt_trans hab hbd

theorem lawCmp_buildIdCmp : LawCmp buildIdCmp := by
  have hn := lawCmp_cmpLO (α := Nat)
  have hs := lawCmp_cmpLO (α := String)
  refine ⟨?_, ?_, ?_⟩
  · intro a b
    unfold buildIdCmp
    by_cases ha : isDigitsStr a = true <;> by_cases hb : isDigitsStr b = true <;>
      simp [ha, hb]
    · rw [Ordering.then_swap, ← hn.symm, ← hs.symm]
    · rfl
    · rfl
    · exact hs.symm a b
  · intro a b
    unfold buildIdCmp
    by_cases ha : isDigitsStr a = true <;> by_cases hb : isDigitsStr b = true <;>
      simp [ha, hb]
    · rw [Ordering.then_eq_eq]
      constructor
      · rintro ⟨-, h⟩
        exact (hs.eq_iff a b).1 h
      · rintro rfl
        exact ⟨hn.refl_eq _, hs.refl_eq _⟩
    · rintro rfl
      exact hb ha
    · rintro rfl
      exact ha hb
    · exact hs.eq_iff a b
  · intro a b d hab hbd
    unfold buildIdCmp at hab hbd ⊢
    by_cases ha : isDigitsStr a = true <;> by_cases hb : isDigitsStr b = true <;>
      by_cases hd : isDigitsStr d = true <;> simp [ha, hb, hd] at hab hbd ⊢
    · rw [Ordering.then_eq_lt] at hab hbd ⊢
      rcases hab with h₁ | ⟨h₁, h₂⟩
      · rcases hbd with h₃ | ⟨h₃, h₄⟩
        · exact Or.inl (hn.lt_trans h₁ h₃)
        · have : b.length = d.length := (hn.eq_iff _ _).1 h₃
          rw [← this]
          exact Or.inl h₁
      · have hlen : a.length = b.length := (hn.eq_iff _ _).1 h₁
        rcases hbd with h₃ | ⟨h₃, h₄⟩
        · rw [hlen]
          exact Or.inl h₃
        · have hlen' : b.length = d.length := (hn.eq_iff _ _).1 h₃
          refine Or.inr ⟨?_, hs.lt_trans h₂ h₄⟩
          rw [hlen, hlen']
          exact hn.refl_eq _
    · exact hs.lt_trans hab hbd

theorem lawCmp_prodCmp {α β : Type} {c₁ : α → α → Ordering} {c₂ : β → β → Ordering}
    (h₁ : LawCmp c₁) (h₂ : LawCmp c₂) : LawCmp (prodCmp c₁ c₂) := by
  refine ⟨?_, ?_, ?_⟩
  · intro a b
    unfold prodCmp
    rw [Ordering.then_swap, ← h₁.symm, ← h₂.symm]
  · intro a b
    unfold prodCmp
    rw [Ordering.then_eq_eq, h₁.eq_iff, h₂.eq_iff]
    constructor
    · rintro ⟨hfst, hsnd⟩
      exact Prod.ext hfst hsnd
    · rintro rfl
      exact ⟨rfl, rfl⟩
  · intro a b d hab hbd
    unfold prodCmp at hab hbd ⊢
    rw [Ordering.then_eq_lt] at hab hbd ⊢
    rcases hab with h₁' | ⟨h₁', h₂'⟩
    · rcases hbd with h₃ | ⟨h₃, h₄⟩
      · exact Or.inl (h₁.lt_trans h₁' h₃)
      · have : b.1 = d.1 := (h₁.eq_iff _ _).1 h₃
        rw [← this]
        exact Or.inl h₁'
    · have heq : a.1 = b.1 := (h₁.eq_iff _ _).1 h₁'
      rcases hbd with h₃ | ⟨h₃, h₄⟩
      · rw [heq]
        exact Or.inl h₃
      · refine Or.inr ⟨?_, h₂.lt_trans h₂' h₄⟩
        rw [heq]
        exact h₃

theorem vkey_inj : Function.Injective vkey := by
  intro a b h
  cases a
  cases b
  simp [vkey] at h
  simp [h.1, h.2.1, h.2.2.1, h.2.2.2.1, h.2.2.2.2]

theorem lawCmp_vkeyCmp : LawCmp vkeyCmp :=
  lawCmp_prodCmp lawCmp_cmpLO (lawCmp_prodCmp lawCmp_cmpLO (lawCmp_prodCmp lawCmp_cmpLO
    (lawCmp_prodCmp lawCmp_preCmp (lawCmp_listCmp lawCmp_buildIdCmp))))

theorem lawCmp_versionCmp : LawCmp versionCmp := by
  have hk := lawCmp_vkeyCmp
  refine ⟨?_, ?_, ?_⟩
  · intro a b
    exact hk.symm (vkey a) (vkey b)
  · intro a b
    unfold versionCmp
    rw [hk.eq_iff]
    exact ⟨fun h => vkey_inj h, fun h => by rw [h]⟩
  · intro a b d hab hbd
    exact hk.lt_trans hab hbd

/-! ### The descending sort used by the resolver -/

theorem vge_refl (a : Version) : vge a a := by
  unfold vge Version.le
  rw [lawCmp_versionCmp.refl_eq]
  decide

theorem vge_trans {a b d : Version} (h₁ : vge a b) (h₂ : vge b d) : vge a d :=
  lawCmp_versionCmp.le_trans h₂ h₁

theorem vge_total (a b : Version) : vge a b ∨ vge b a :=
  (lawCmp_versionCmp.le_total b a).elim Or.inl Or.inr


theorem sortDesc_perm (l : List Version) : List.Perm (sortDesc l) l :=
  List.perm_insertionSort vge l

theorem sortDesc_sorted (l : List Version) : (sortDesc l).Sorted vge := by
  haveI : IsTotal Version vge := ⟨vge_total⟩
  haveI : IsTrans Version vge := ⟨fun _ _ _ => vge_trans⟩
  exact List.sorted_insertionSort vge l

/-- In a list sorted in descending order, `find?` returns a maximal element
among those satisfying the predicate. -/
theorem find_desc_max {m : Version → Bool} :
    ∀ {l : List Version}, l.Sorted vge → ∀ {v : Version}, l.find? m = some v →
      m v = true ∧ v ∈ l ∧ ∀ w ∈ l, m w = true → Version.le w v := by
  intro l
  induction l with
  | nil =>
    intro _ v hfind
    simp [List.find?_nil] at hfind
  | cons a t ih =>
    intro hsort v hfind
    by_cases hma : m a = true
    · rw [List.find?_cons_of_pos _ hma] at hfind
      injection hfind with hv
      subst hv
      refine ⟨hma, List.mem_cons_self a t, ?_⟩
      intro w hw _
      rcases List.mem_cons.1 hw with rfl | hwt
      · exact vge_refl w
      · exact List.rel_of_sorted_cons hsort w hwt
    · rw [List.find?_cons_of_neg _ hma] at hfind
      obtain ⟨hmv, hvt, hmax⟩ := ih (List.sorted_cons.1 hsort).2 hfind
      refine ⟨hmv, List.mem_cons_of_mem a hvt, ?_⟩
      intro w hw hmw
      rcases List.mem_cons.1 hw with rfl | hwt
      · exact absurd hmw hma
      · exact hmax w hwt hmw

/-! ## Helper lemmas -/

theorem dropAnnRev_suffix (l : List Char) : (dropAnnRev l).IsSuffix l := by
  suffices h : ∀ (n : Nat) (l : List Char), l.length = n → (dropAnnRev l).IsSuffix l from
    h l.length l rfl
  intro n
  induction n using Nat.strong_induction_on with
  | _ n ih =>
    intro l hl
    rw [dropAnnRev.eq_def]
    split
    · rename_i rest
      subst hl
      refine (ih rest.length (by simp only [List.length_cons]; omega) rest rfl).trans ?_
      exact ⟨['\x7d', '\x7b', '^'], rfl⟩
    · exact List.suffix_refl _

theorem trimAnn_data_isPrefix (s : String) : (trimAnn s).data <+: s.data := by
  show (dropAnnRev s.data.reverse).reverse <+: s.data
  have h := dropAnnRev_suffix s.data.reverse
  have h2 : (dropAnnRev s.data.reverse).reverse <+: s.data.reverse.reverse := by
    rw [List.reverse_prefix]
    exact h
  rwa [List.reverse_reverse] at h2

theorem head_eq_of_isPrefix {l₁ l₂ : List Char} (h : l₁ <+: l₂) (hne : l₁ ≠ []) :
    l₁.head? = l₂.head? := by
  obtain ⟨r, rfl⟩ := h
  cases l₁ with
  | nil => exact absurd rfl hne
  | cons c t => rfl

theorem parseChars_nil : parseChars [] = none := rfl

theorem parseChars_head_not_digit {l : List Char} {c : Char} (hhead : l.head? = some c)
    (hdig : c.isDigit = false) : parseChars l = none := by
  cases l with
  | nil => rfl
  | cons a t =>
    injection hhead with ha
    subst ha
    simp [parseChars, takeNum, List.takeWhile_cons, hdig]

theorem sortDesc_headI_mem {l : List Version} (h : l ≠ []) : (sortDesc l).headI ∈ l := by
  cases hsd : sortDesc l with
  | nil =>
    exfalso
    have hperm := sortDesc_perm l
    rw [hsd] at hperm
    exact h hperm.symm.eq_nil
  | cons b u =>
    have hperm := sortDesc_perm l
    rw [hsd] at hperm
    simpa [List.headI] using hperm.mem_iff.1 (List.mem_cons_self b u)

/-- Any output of the resolver core is `v` followed by the rendering of a
version that is a member of the parsed tag list. -/
theorem resolveFromVersions_ok_shape (rp : String → Option (Version → Bool))
    (versions : List Version) (req s : String)
    (h : resolveFromVersions rp versions req = Except.ok s) :
    ∃ v ∈ versions, s = fmtV v := by
  unfold resolveFromVersions at h
  by_cases he : versions.isEmpty = true
  · rw [if_pos he] at h
    cases h
  · rw [if_neg he] at h
    have hne : versions ≠ [] := by
      cases versions with
      | nil => exact absurd rfl he
      | cons a t => simp
    by_cases hl : req = "latest"
    · rw [if_pos hl] at h
      injection h with hs
      exact ⟨(sortDesc versions).headI, sortDesc_headI_mem hne, hs.symm⟩
    · rw [if_neg hl] at h
      split at h
      · rename_i specific hp
        split at h
        · rename_i hm
          injection h with hs
          exact ⟨specific, hm, hs.symm⟩
        · cases h
      · rename_i hp
        split at h
        · cases h
        · rename_i m hr
          split at h
          · rename_i v hf
            injection h with hs
            refine ⟨v, ?_, hs.symm⟩
            rw [← (sortDesc_perm versions).mem_iff]
            exact List.mem_of_find?_eq_some hf
          · cases h

theorem string_append_data (a b : String) : (a ++ b).data = a.data ++ b.data := rfl

/-- `Version::parse` rejects every string that starts with `v`. -/
theorem parse_v_string_none (s : String) : Version.parse ("v" ++ s) = none := by
  show parseChars (("v" ++ s).data) = none
  rw [string_append_data]
  exact parseChars_head_not_digit rfl rfl

/-- Inversion of one loop iteration that produced a lock entry: the entry
records the dependency name, the resolved version and the digest of the
downloaded bytes, and is only produced when the plugin directory was
absent and the cache write succeeded. -/
theorem runDep_lockUpdate_inv {env : Env} {dep : Dependency} {r : DepResult}
    {entry : LockedDependency} (hrun : runDep env dep = Except.ok r)
    (hupd : r.lockUpdate = some entry) :
    entry.name = dep.name ∧ entry.repo = dep.repo ∧
    env.resolve dep = Except.ok entry.version ∧
    env.dirExists dep.name = false ∧ env.cacheWriteOk dep.name = true ∧
    ∃ bytes, env.download dep.repo entry.version = Except.ok bytes ∧
      entry.hash = env.hashHex bytes := by
  unfold runDep at hrun
  split at hrun
  · injection hrun with hr
    rw [← hr] at hupd
    cases hupd
  · rename_i version hres
    split at hrun
    · injection hrun with hr
      rw [← hr] at hupd
      cases hupd
    · rename_i bytes hdl
      split at hrun
      · injection hrun with hr
        rw [← hr] at hupd
        cases hupd
      · rename_i hdir
        split at hrun
        · cases hrun
        · rename_i hcw
          split at hrun
          · injection hrun with hr
            rw [← hr] at hupd
            cases hupd
          · rename_i entries hzip
            injection hrun with hr
            rw [← hr] at hupd
            injection hupd with he
            subst he
            refine ⟨rfl, rfl, hres, ?_, ?_, bytes, hdl, rfl⟩
            · simpa using hdir
            · simpa using hcw

/-- When the plugin directory already exists the iteration leaves the lock
record untouched (and likewise on every failure path, where there is
nothing to record). -/
theorem runDep_skip_of_dirExists {env : Env} {dep : Dependency} {r : DepResult}
    (hrun : runDep env dep = Except.ok r) (hdir : env.dirExists dep.name = true) :
    r.lockUpdate = none := by
  rcases hupd : r.lockUpdate with _ | entry
  · rfl
  · obtain ⟨-, -, -, hdir', -⟩ := runDep_lockUpdate_inv hrun hupd
    rw [hdir] at hdir'
    cases hdir'

/-- Every iteration that survives resolution issues the network download. -/
theorem runDep_network {env : Env} {dep : Dependency} {r : DepResult} {version : String}
    (hres : env.resolve dep = Except.ok version) (hrun : runDep env dep = Except.ok r) :
    r.networkCalled = true := by
  unfold runDep at hrun
  rw [hres] at hrun
  split at hrun
  · rename_i heq
    simp at heq
  · rename_i version' heq
    split at hrun
    · injection hrun with hr
      rw [← hr]
    · split at hrun
      · injection hrun with hr
        rw [← hr]
      · split at hrun
        · simp at hrun
        · split at hrun
          · injection hrun with hr
            rw [← hr]
          · injection hrun with hr
            rw [← hr]

/-- Any cache write of an iteration is at `<name>.zip` and holds exactly
the downloaded bytes. -/
theorem runDep_cacheWrite_inv {env : Env} {dep : Dependency} {r : DepResult}
    {kv : String × List Nat} (hrun : runDep env dep = Except.ok r)
    (hcw : r.cacheWrite = some kv) :
    kv.1 = cacheZipName dep.name ∧ ∃ version bytes, env.resolve dep = Except.ok version ∧
      env.download dep.repo version = Except.ok bytes ∧ kv.2 = bytes := by
  unfold runDep at hrun
  split at hrun
  · injection hrun with hr
    rw [← hr] at hcw
    cases hcw
  · rename_i version hres
    split at hrun
    · injection hrun with hr
      rw [← hr] at hcw
      cases hcw
    · rename_i bytes hdl
      split at hrun
      · injection hrun with hr
        rw [← hr] at hcw
        cases hcw
      · split at hrun
        · cases hrun
        · split at hrun
          · injection hrun with hr
            rw [← hr] at hcw
            injection hcw with he
            subst he
            exact ⟨rfl, version, bytes, hres, hdl, rfl⟩
          · injection hrun with hr
            rw [← hr] at hcw
            injection hcw with he
            subst he
            exact ⟨rfl, version, bytes, hres, hdl, rfl⟩

/-- An iteration never aborts when the cache write succeeds. -/
theorem runDep_ok_of_cacheOk {env : Env} (hcache : ∀ n, env.cacheWriteOk n = true)
    (dep : Dependency) : ∃ r, runDep env dep = Except.ok r := by
  rcases h : runDep env dep with e | r
  · exfalso
    unfold runDep at h
    split at h
    · cases h
    · split at h
      · cases h
      · split at h
        · cases h
        · split at h
          · rename_i hcw
            rw [hcache dep.name] at hcw
            simp at hcw
          · split at h
            · cases h
            · cases h
  · exact ⟨r, rfl⟩

/-- A run in which every cache write succeeds always completes and writes
the lockfile. -/
theorem installLoop_ok_of_cacheOk {env : Env} (hcache : ∀ n, env.cacheWriteOk n = true) :
    ∀ (deps : List Dependency) (lock : List LockedDependency),
      ∃ res, installLoop env deps lock = Except.ok res := by
  intro deps
  induction deps with
  | nil =>
    intro lock
    exact ⟨_, rfl⟩
  | cons dep rest ih =>
    intro lock
    obtain ⟨r, hr⟩ := runDep_ok_of_cacheOk hcache dep
    simp only [installLoop, hr]
    obtain ⟨res, hres⟩ := ih
      (match r.lockUpdate with
        | none => lock
        | some entry => lock.filter (fun d => decide (d.name ≠ dep.name)) ++ [entry])
    rw [hres]
    exact ⟨_, rfl⟩

/-- A skipped iteration (no lock update) contributes only its trace: the
lockfile of the remaining run is unchanged. -/
theorem installLoop_skip {env : Env} {dep : Dependency} {r : DepResult}
    (hrun : runDep env dep = Except.ok r) (hupd : r.lockUpdate = none)
    (rest : List Dependency) (lock : List LockedDependency) :
    installLoop env (dep :: rest) lock = (installLoop env rest lock).map
      (fun res => ⟨res.lockfile, (if r.networkCalled then [dep.name] else []) ++ res.networkCalls,
        r.cacheWrite.toList ++ res.cacheWrites, (dep.name, r.files) :: res.installed⟩) := by
  simp only [installLoop, hrun, hupd]
  rcases h : installLoop env rest lock with e | res
  · rfl
  · rfl

/-- Every entry of the written lockfile either survived from the previous
lockfile or records, for some manifest dependency of that name, exactly
the version returned by the resolver. -/
theorem installLoop_lock_entries {env : Env} :
    ∀ (deps : List Dependency) (lock : List LockedDependency) (res : RunResult),
      installLoop env deps lock = Except.ok res → ∀ e ∈ res.lockfile,
        e ∈ lock ∨ ∃ dep ∈ deps, dep.name = e.name ∧ env.resolve dep = Except.ok e.version := by
  intro deps
  induction deps with
  | nil =>
    intro lock res h e he
    rw [installLoop] at h
    injection h with h
    rw [← h] at he
    exact Or.inl he
  | cons dep rest ih =>
    intro lock res h e he
    rcases hrun : runDep env dep with a | r
    · rw [installLoop, hrun] at h
      cases h
    · simp only [installLoop, hrun] at h
      rcases hrec : installLoop env rest
          (match r.lockUpdate with
            | none => lock
            | some entry => lock.filter (fun d => decide (d.name ≠ dep.name)) ++ [entry]) with
        a | res'
      · rw [hrec] at h
        cases h
      · simp only [hrec] at h
        injection h with h
        rw [← h] at he
        have he' : e ∈ res'.lockfile := he
        rcases ih _ res' hrec e he' with hmem | ⟨dep', hdep', hname, hres⟩
        · rcases hupd : r.lockUpdate with _ | entry
          · rw [hupd] at hmem
            exact Or.inl hmem
          · rw [hupd] at hmem
            rcases List.mem_append.1 hmem with hf | hs
            · exact Or.inl (List.mem_of_mem_filter hf)
            · rcases List.mem_singleton.1 hs with rfl
              obtain ⟨hn, -, hv, -⟩ := runDep_lockUpdate_inv hrun hupd
              exact Or.inr ⟨dep, List.mem_cons_self dep rest, hn.symm, hv⟩
        · exact Or.inr ⟨dep', List.mem_cons_of_mem dep hdep', hname, hres⟩

/-- The install loop never reads the cache: runs over environments that
agree on everything except the cache contents coincide. -/
theorem installLoop_cache_irrelevant
    (f₁ : Dependency → Except String String) (f₂ : String → String → Except String (List Nat))
    (f₃ f₄ : String → Bool) (f₅ : List Nat → Except String (List ZipEntry))
    (f₆ : List Nat → String) (c₁ c₂ : List (String × List Nat)) :
    ∀ (deps : List Dependency) (lock : List LockedDependency),
      installLoop ⟨f₁, f₂, f₃, f₄, f₅, f₆, c₁⟩ deps lock =
        installLoop ⟨f₁, f₂, f₃, f₄, f₅, f₆, c₂⟩ deps lock := by
  intro deps
  induction deps with
  | nil =>
    intro lock
    rfl
  | cons dep rest ih =>
    intro lock
    have hr : runDep ⟨f₁, f₂, f₃, f₄, f₅, f₆, c₁⟩ dep =
        runDep ⟨f₁, f₂, f₃, f₄, f₅, f₆, c₂⟩ dep := rfl
    simp only [installLoop, hr]
    rcases hd : runDep ⟨f₁, f₂, f₃, f₄, f₅, f₆, c₂⟩ dep with e | r
    · rfl
    · simp only [ih]

/-- A tag whose first character is neither a digit nor `v` is always
discarded: only leading `v` characters are tolerated by the code. -/
theorem tagToVersion_none_of_bad_head {s : String} {c : Char} (hhead : s.data.head? = some c)
    (hdig : c.isDigit = false) (hv : c ≠ 'v') : tagToVersion s = none := by
  show parseChars ((trimAnn s).data.dropWhile (· == 'v')) = none
  rcases ht : (trimAnn s).data with _ | ⟨c', t⟩
  · rfl
  · have hpre := trimAnn_data_isPrefix s
    rw [ht] at hpre
    have hh := head_eq_of_isPrefix hpre (by simp)
    rw [hhead] at hh
    injection hh with hce
    subst hce
    rw [List.dropWhile_cons, if_neg (by simp [hv])]
    exact parseChars_head_not_digit rfl hdig

theorem concat_slash_getLast (X : String) : (X ++ "/").data.getLast? = some '/' := by
  rw [string_append_data]
  exact List.getLast?_concat _

/-! ## Claim theorems -/

/-- C1 (amended): during install the recomputed SHA-256 digest is never
compared with the stored hash.  When every cache write succeeds the run
always completes and writes the lockfile (no integrity abort exists); a
dependency whose plugin directory exists is skipped with its old lock
entry kept untouched; and a freshly written lock entry always carries the
digest of the newly downloaded bytes, irrespective of the stored hash. -/
theorem install_no_integrity_verification :
    (∀ (env : Env) (cfg : Config) (lock : List LockedDependency),
       (∀ n, env.cacheWriteOk n = true) → ∃ res, installRun env cfg lock = Except.ok res)
  ∧ (∀ (env : Env) (dep : Dependency) (r : DepResult),
       runDep env dep = Except.ok r → env.dirExists dep.name = true → r.lockUpdate = none)
  ∧ (∀ (env : Env) (dep : Dependency) (r : DepResult) (entry : LockedDependency),
       runDep env dep = Except.ok r → r.lockUpdate = some entry →
       ∃ bytes, env.download dep.repo entry.version = Except.ok bytes ∧
         entry.hash = env.hashHex bytes) :=
  ⟨fun _ cfg lock h => installLoop_ok_of_cacheOk h cfg.dependencies lock,
   fun _ _ _ h hdir => runDep_skip_of_dirExists h hdir,
   fun _ _ _ _ h hupd => (runDep_lockUpdate_inv h hupd).2.2.2.2.2⟩

/-- C1 witness: a concrete run with all cache writes succeeding completes
with a lockfile write. -/
theorem install_no_integrity_verification_witness :
    ∃ res, installRun
      ⟨fun _ => Except.ok "v1.0.0", fun _ _ => Except.ok [7], fun _ => false, fun _ => true,
        fun _ => Except.ok [], fun _ => "freshhash", []⟩
      ⟨some ".", [⟨"a", "1.0.0", "o/r", none⟩]⟩ [] = Except.ok res :=
  install_no_integrity_verification.1 _ _ _ (fun _ => rfl)

/-- C1 counterexample: the lock entry for `a` is present and current (same
name, same resolved version `v1.0.0`), the re-downloaded bytes hash to
`freshhash`, different from the stored `storedhash`, and yet the install
completes and writes the lockfile (with the fresh digest) instead of
aborting before any lockfile write. -/
theorem integrity_mismatch_not_fatal_cex :
    installRun
      ⟨fun _ => Except.ok "v1.0.0", fun _ _ => Except.ok [7], fun _ => false, fun _ => true,
        fun _ => Except.ok [], fun _ => "freshhash", []⟩
      ⟨some ".", [⟨"a", "1.0.0", "o/r", none⟩]⟩
      [⟨"a", "v1.0.0", "o/r", "storedhash"⟩] =
    Except.ok ⟨[⟨"a", "v1.0.0", "o/r", "freshhash"⟩], ["a"], [("a.zip", [7])], [("a", [])]⟩ := by
  decide

/-- C2: at the failing input of the repository's own test
`test_version_change_updates_lockfile_and_reinstalls_plugin`, the stored
lock version is `v1.8.0`, the fresh resolution returns `v2.5.0`, the
plugin directory exists — and the code skips the dependency entirely,
leaving the stale lock entry in the written lockfile instead of replacing
it with the new resolved version. -/
theorem version_change_blocked_by_dir :
    installRun
      ⟨fun _ => Except.ok "v2.5.0", fun _ _ => Except.ok [7], fun _ => true, fun _ => true,
        fun _ => Except.ok [], fun _ => "h", []⟩
      ⟨some ".", [⟨"create-block-theme", "latest", "WordPress/create-block-theme", none⟩]⟩
      [⟨"create-block-theme", "v1.8.0", "WordPress/create-block-theme", "oldhash"⟩] =
    Except.ok ⟨[⟨"create-block-theme", "v1.8.0", "WordPress/create-block-theme", "oldhash"⟩],
      ["create-block-theme"], [], [("create-block-theme", [])]⟩ := by
  decide

/-- C3 (amended): the cache file name is derived from the dependency name
alone (`<name>.zip`, no version); the install loop never reads the cache
(two runs differing only in cache contents coincide); every cache write
stores exactly the downloaded bytes; and every dependency surviving
resolution issues the network download — cached artifacts are never
reused. -/
theorem cache_is_write_only :
    (∀ (f₁ : Dependency → Except String String)
       (f₂ : String → String → Except String (List Nat)) (f₃ f₄ : String → Bool)
       (f₅ : List Nat → Except String (List ZipEntry)) (f₆ : List Nat → String)
       (c₁ c₂ : List (String × List Nat)) (cfg : Config) (lock : List LockedDependency),
       installRun ⟨f₁, f₂, f₃, f₄, f₅, f₆, c₁⟩ cfg lock =
         installRun ⟨f₁, f₂, f₃, f₄, f₅, f₆, c₂⟩ cfg lock)
  ∧ (∀ (env : Env) (dep : Dependency) (r : DepResult) (kv : String × List Nat),
       runDep env dep = Except.ok r → r.cacheWrite = some kv →
       kv.1 = cacheZipName dep.name ∧ ∃ version bytes, env.resolve dep = Except.ok version ∧
         env.download dep.repo version = Except.ok bytes ∧ kv.2 = bytes)
  ∧ (∀ (env : Env) (dep : Dependency) (version : String) (r : DepResult),
       env.resolve dep = Except.ok version → runDep env dep = Except.ok r →
       r.networkCalled = true) :=
  ⟨fun f₁ f₂ f₃ f₄ f₅ f₆ c₁ c₂ cfg lock =>
     installLoop_cache_irrelevant f₁ f₂ f₃ f₄ f₅ f₆ c₁ c₂ cfg.dependencies lock,
   fun _ _ _ _ h hcw => runDep_cacheWrite_inv h hcw,
   fun _ _ _ _ hres hrun => runDep_network hres hrun⟩

/-- C3 witness: instantiation of the cache-write and network facts on a
concrete iteration. -/
theorem cache_is_write_only_witness :
    (cacheZipName "a", ([9] : List Nat)).1 = cacheZipName "a"
  ∧ (⟨some ⟨"a", "v1.0.0", "o/r", "h"⟩, true, some (cacheZipName "a", [9]), []⟩ :
      DepResult).networkCalled = true :=
  ⟨(cache_is_write_only.2.1
      ⟨fun _ => Except.ok "v1.0.0", fun _ _ => Except.ok [9], fun _ => false, fun _ => true,
        fun _ => Except.ok [], fun _ => "h", [("a.zip", [9])]⟩
      ⟨"a", "latest", "o/r", none⟩
      ⟨some ⟨"a", "v1.0.0", "o/r", "h"⟩, true, some (cacheZipName "a", [9]), []⟩
      (cacheZipName "a", [9]) (by decide) rfl).1,
   cache_is_write_only.2.2
      ⟨fun _ => Except.ok "v1.0.0", fun _ _ => Except.ok [9], fun _ => false, fun _ => true,
        fun _ => Except.ok [], fun _ => "h", [("a.zip", [9])]⟩
      ⟨"a", "latest", "o/r", none⟩ "v1.0.0"
      ⟨some ⟨"a", "v1.0.0", "o/r", "h"⟩, true, some (cacheZipName "a", [9]), []⟩
      rfl (by decide)⟩

/-- C3 counterexample: the cache already holds an artifact at the key for
dependency `a`, and the install still issues the network download (the
network-call trace is `["a"]`, not empty), re-writing the cache. -/
theorem cache_hit_still_downloads_cex :
    (⟨fun _ => Except.ok "v1.0.0", fun _ _ => Except.ok [9], fun _ => false, fun _ => true,
        fun _ => Except.ok [], fun _ => "h", [("a.zip", [9])]⟩ : Env).cache =
      [(cacheZipName "a", [9])]
  ∧ installRun
      ⟨fun _ => Except.ok "v1.0.0", fun _ _ => Except.ok [9], fun _ => false, fun _ => true,
        fun _ => Except.ok [], fun _ => "h", [("a.zip", [9])]⟩
      ⟨some ".", [⟨"a", "latest", "o/r", none⟩]⟩ [] =
    Except.ok ⟨[⟨"a", "v1.0.0", "o/r", "h"⟩], ["a"], [(cacheZipName "a", [9])], [("a", [])]⟩ := by
  decide

/-- C4 (amended): extraction strips the specific expected root prefix
`<repo-short-name>-<version-without-v>` (a single path segment, by
hypothesis).  If every entry starts with that prefix `X` and `X` does not
recur among the remaining components, then no installed path contains the
segment `X`; an entry whose path is exactly `X/` (for any `X`) produces no
file; and an entry that does not start with the expected prefix is skipped
and produces no file. -/
theorem root_strip_amended (repo version : String)
    (hbase : pathComps (rootPfx repo version) = [PathComp.normal (rootPfx repo version)]) :
    (∀ entries : List ZipEntry,
       (∀ e ∈ entries, ∃ tail, enclosedComps e.name =
           some (PathComp.normal (rootPfx repo version) :: tail) ∧
           PathComp.normal (rootPfx repo version) ∉ tail) →
       ∀ p ∈ extractFiles repo version entries, PathComp.normal (rootPfx repo version) ∉ p)
  ∧ (∀ (X : String) (w : Bool), extractFiles repo version [⟨X ++ "/", w⟩] = [])
  ∧ (∀ (e : ZipEntry) (c : PathComp) (tail : List PathComp),
       enclosedComps e.name = some (c :: tail) →
       c ≠ PathComp.normal (rootPfx repo version) → extractFiles repo version [e] = []) := by
  refine ⟨?_, ?_, ?_⟩
  · intro entries hyp p hp
    obtain ⟨e, he, hfe⟩ := List.mem_filterMap.1 hp
    obtain ⟨tail, henc, htail⟩ := hyp e he
    have hdest : entryDest repo version e = some tail := by
      rw [entryDest, henc, hbase]
      simp [stripComps]
    simp only [hdest] at hfe
    by_cases hdir : isDirEntry e = true
    · rw [if_pos hdir] at hfe
      cases hfe
    · rw [if_neg hdir] at hfe
      by_cases hw : e.writeOk = true
      · rw [if_pos hw] at hfe
        injection hfe with hpe
        rw [← hpe]
        exact htail
      · rw [if_neg hw] at hfe
        cases hfe
  · intro X w
    have hdir : isDirEntry ⟨X ++ "/", w⟩ = true := by
      simp [isDirEntry, concat_slash_getLast]
    rcases hdest : entryDest repo version ⟨X ++ "/", w⟩ with _ | dest
    · simp [extractFiles, List.filterMap_cons, hdest]
    · simp [extractFiles, List.filterMap_cons, hdest, hdir]
  · intro e c tail henc hc
    have hdest : entryDest repo version e = none := by
      rw [entryDest, henc, hbase]
      simp only [Option.some_bind, stripComps]
      rw [if_neg (fun h => hc h.symm)]
    simp [extractFiles, List.filterMap_cons, hdest]

/-- C4 witness: with the expected prefix `plug-1.0.0`, a well-formed
archive installs no path containing the prefix segment, and the bare root
entry `plug-1.0.0/` produces no file. -/
theorem root_strip_amended_witness :
    (∀ p ∈ extractFiles "owner/plug" "v1.0.0" [⟨"plug-1.0.0/sub/file.php", true⟩],
       PathComp.normal (rootPfx "owner/plug" "v1.0.0") ∉ p)
  ∧ extractFiles "owner/plug" "v1.0.0" [⟨"plug-1.0.0" ++ "/", true⟩] = [] := by
  have h := root_strip_amended "owner/plug" "v1.0.0" (by decide)
  refine ⟨h.1 _ ?_, h.2.1 "plug-1.0.0" true⟩
  intro e he
  rcases List.mem_singleton.1 he with rfl
  exact ⟨[PathComp.normal "sub", PathComp.normal "file.php"], by decide, by decide⟩

/-- C4 counterexample: an archive in which every entry is prefixed
`plug-1.0.0/` (the expected root) but where the root segment recurs one
level deeper: the installed path still contains the segment
`plug-1.0.0`, contradicting root-prefix invariance as claimed. -/
theorem root_segment_reappears_cex :
    (∀ e ∈ [(⟨"plug-1.0.0/plug-1.0.0/readme.txt", true⟩ : ZipEntry)],
       ("plug-1.0.0/").data <+: e.name.data)
  ∧ ∃ p ∈ extractFiles "owner/plug" "v1.0.0" [⟨"plug-1.0.0/plug-1.0.0/readme.txt", true⟩],
       PathComp.normal "plug-1.0.0" ∈ p := by
  decide

/-- C5 (amended): the resolver strips trailing `^{}` annotation markers
and any leading `v` characters — not arbitrary non-digit leading
characters — before parsing; a tag whose first character is neither a
digit nor `v` is always discarded, while `v`-prefixed and annotated tags
parse. -/
theorem tag_v_strip_amended :
    (∀ (s : String) (c : Char), s.data.head? = some c → c.isDigit = false → c ≠ 'v' →
       tagToVersion s = none)
  ∧ tagToVersion "v1.2.3" = some ⟨1, 2, 3, [], []⟩
  ∧ tagToVersion "vv1.2.3" = some ⟨1, 2, 3, [], []⟩
  ∧ tagToVersion "1.2.3^\x7b\x7d" = some ⟨1, 2, 3, [], []⟩
  ∧ tagToVersion "1.2.3" = some ⟨1, 2, 3, [], []⟩ :=
  ⟨fun _ _ h1 h2 h3 => tagToVersion_none_of_bad_head h1 h2 h3,
   by decide, by decide, by decide, by decide⟩

/-- C5 witness: the discard rule applied to the concrete tag
`release-1.2.3`. -/
theorem tag_v_strip_amended_witness : tagToVersion "release-1.2.3" = none :=
  tag_v_strip_amended.1 "release-1.2.3" 'r' (by decide) (by decide) (by decide)

/-- C5 counterexample: on the tag `release-1.2.3` the code discards the
tag (only `v` is stripped), while the claimed strip-any-non-digit-leading
rule would parse it as `1.2.3`. -/
theorem tag_nondigit_strip_cex :
    tagToVersion "release-1.2.3" = none
  ∧ specTagToVersion "release-1.2.3" = some ⟨1, 2, 3, [], []⟩ := by
  decide

/-- C6: for a requirement that is not `latest`, is not an exact version,
and parses as a range, resolution over a nonempty parsed tag list returns
the highest parsed version satisfying the range, or the
no-matching-version error when none satisfies it; in particular with tags
`[0.9.0, 1.0.0, 1.2.3, 2.0.0]` the requirement `^1.0.0` resolves to
`1.2.3`. -/
theorem range_resolution_highest :
    (∀ (versions : List Version) (rp : String → Option (Version → Bool)) (req : String)
       (m : Version → Bool), versions ≠ [] → req ≠ "latest" → Version.parse req = none →
       rp req = some m →
       (∃ v, v ∈ versions ∧ m v = true ∧
           resolveFromVersions rp versions req = Except.ok (fmtV v) ∧
           ∀ w ∈ versions, m w = true → Version.le w v)
       ∨ ((∀ w ∈ versions, m w = false) ∧
           resolveFromVersions rp versions req =
             Except.error ("No matching version found for requirement " ++ req)))
  ∧ resolveFromVersions (fun _ => some caret100)
      [⟨0, 9, 0, [], []⟩, ⟨1, 0, 0, [], []⟩, ⟨1, 2, 3, [], []⟩, ⟨2, 0, 0, [], []⟩] "^1.0.0" =
      Except.ok "v1.2.3" := by
  constructor
  · intro versions rp req m hne hlatest hexact hrange
    have hie : versions.isEmpty = false := by
      cases versions with
      | nil => exact absurd rfl hne
      | cons a t => rfl
    rcases hf : (sortDesc versions).find? m with _ | v
    · refine Or.inr ⟨?_, ?_⟩
      · intro w hw
        have hnm := List.find?_eq_none.1 hf w ((sortDesc_perm versions).mem_iff.2 hw)
        simpa using hnm
      · simp [resolveFromVersions, hie, hlatest, hexact, hrange, hf]
    · obtain ⟨hmv, hvmem, hmax⟩ := find_desc_max (sortDesc_sorted versions) hf
      refine Or.inl ⟨v, (sortDesc_perm versions).mem_iff.1 hvmem, hmv, ?_, ?_⟩
      · simp [resolveFromVersions, hie, hlatest, hexact, hrange, hf]
      · intro w hw hmw
        exact hmax w ((sortDesc_perm versions).mem_iff.2 hw) hmw
  · decide

/-- C6 witness: the general range-resolution property instantiated at the
scenario tags and the matcher of `^1.0.0`. -/
theorem range_resolution_highest_witness :
    (∃ v, v ∈ ([⟨0, 9, 0, [], []⟩, ⟨1, 0, 0, [], []⟩, ⟨1, 2, 3, [], []⟩,
          ⟨2, 0, 0, [], []⟩] : List Version) ∧ caret100 v = true ∧
        resolveFromVersions (fun _ => some caret100)
          [⟨0, 9, 0, [], []⟩, ⟨1, 0, 0, [], []⟩, ⟨1, 2, 3, [], []⟩, ⟨2, 0, 0, [], []⟩]
          "^1.0.0" = Except.ok (fmtV v) ∧
        ∀ w ∈ ([⟨0, 9, 0, [], []⟩, ⟨1, 0, 0, [], []⟩, ⟨1, 2, 3, [], []⟩,
            ⟨2, 0, 0, [], []⟩] : List Version), caret100 w = true → Version.le w v)
    ∨ ((∀ w ∈ ([⟨0, 9, 0, [], []⟩, ⟨1, 0, 0, [], []⟩, ⟨1, 2, 3, [], []⟩,
          ⟨2, 0, 0, [], []⟩] : List Version), caret100 w = false) ∧
        resolveFromVersions (fun _ => some caret100)
          [⟨0, 9, 0, [], []⟩, ⟨1, 0, 0, [], []⟩, ⟨1, 2, 3, [], []⟩, ⟨2, 0, 0, [], []⟩]
          "^1.0.0" = Except.error ("No matching version found for requirement " ++ "^1.0.0")) :=
  range_resolution_highest.1
    [⟨0, 9, 0, [], []⟩, ⟨1, 0, 0, [], []⟩, ⟨1, 2, 3, [], []⟩, ⟨2, 0, 0, [], []⟩]
    (fun _ => some caret100) "^1.0.0" caret100 (by decide) (by decide) (by decide) rfl

/-- C7: the resolver returns `format!("v{}", version)`, so the version
stored in the lockfile is `v`-prefixed: resolving the tag list `[2.5.0]`
at requirement `2.5.0` yields `v2.5.0`, that string is not parseable as an
exact semantic version, and a full install stores exactly it in the
written lock entry — contradicting the claimed invariant (and the
repository's own test, which expects the unprefixed `2.5.0`). -/
theorem lock_version_v_prefixed :
    resolveGithubVersion (fun _ => none) "h\trefs/tags/2.5.0" "2.5.0" = Except.ok "v2.5.0"
  ∧ Version.parse "v2.5.0" = none
  ∧ installRun
      ⟨fun dep => resolveGithubVersion (fun _ => none) "h\trefs/tags/2.5.0" dep.version,
        fun _ _ => Except.ok [5], fun _ => false, fun _ => true, fun _ => Except.ok [],
        fun _ => "h", []⟩
      ⟨some ".", [⟨"create-block-theme", "2.5.0", "WordPress/create-block-theme", none⟩]⟩ [] =
    Except.ok ⟨[⟨"create-block-theme", "v2.5.0", "WordPress/create-block-theme", "h"⟩],
      ["create-block-theme"], [(cacheZipName "create-block-theme", [5])],
      [("create-block-theme", [])]⟩ := by
  decide

/-- C8 (amended): a resolution or download failure aborts only that one
dependency — the remaining run is unchanged except for the trace — but a
filesystem failure writing the archive to the cache aborts the entire run
(the propagated `?` error) before any lockfile write. -/
theorem per_dep_isolation_except_cache_io :
    (∀ (env : Env) (dep : Dependency) (rest : List Dependency)
       (lock : List LockedDependency) (msg : String), env.resolve dep = Except.error msg →
       installLoop env (dep :: rest) lock = (installLoop env rest lock).map
         (fun res => ⟨res.lockfile, res.networkCalls, res.cacheWrites,
           (dep.name, []) :: res.installed⟩))
  ∧ (∀ (env : Env) (dep : Dependency) (rest : List Dependency)
       (lock : List LockedDependency) (version msg : String),
       env.resolve dep = Except.ok version →
       env.download dep.repo version = Except.error msg →
       installLoop env (dep :: rest) lock = (installLoop env rest lock).map
         (fun res => ⟨res.lockfile, dep.name :: res.networkCalls, res.cacheWrites,
           (dep.name, []) :: res.installed⟩))
  ∧ (∀ (env : Env) (dep : Dependency) (rest : List Dependency)
       (lock : List LockedDependency) (version : String) (bytes : List Nat),
       env.resolve dep = Except.ok version →
       env.download dep.repo version = Except.ok bytes →
       env.dirExists dep.name = false → env.cacheWriteOk dep.name = false →
       installLoop env (dep :: rest) lock =
         Except.error (RunAbort.ioWrite (cacheZipName dep.name))) := by
  refine ⟨?_, ?_, ?_⟩
  · intro env dep rest lock msg hres
    have hrun : runDep env dep = Except.ok ⟨none, false, none, []⟩ := by
      simp only [runDep, hres]
    rw [installLoop_skip hrun rfl]
    rfl
  · intro env dep rest lock version msg hres hdl
    have hrun : runDep env dep = Except.ok ⟨none, true, none, []⟩ := by
      simp only [runDep, hres, hdl]
    rw [installLoop_skip hrun rfl]
    rfl
  · intro env dep rest lock version bytes hres hdl hdir hcw
    have hrun : runDep env dep = Except.error (RunAbort.ioWrite (cacheZipName dep.name)) := by
      simp only [runDep, hres, hdl, hdir, hcw, Bool.false_eq_true, if_false, Bool.not_false,
        if_true]
    rw [installLoop, hrun]

/-- C8 witness: a concrete skipped dependency (resolution failure) leaves
the remaining run's lockfile untouched. -/
theorem per_dep_isolation_witness :
    installLoop
      (⟨fun _ => Except.error "no tags", fun _ _ => Except.ok [1], fun _ => false,
        fun _ => true, fun _ => Except.ok [], fun _ => "h", []⟩ : Env)
      [⟨"a", "latest", "o/r", none⟩] [] =
    (installLoop
      (⟨fun _ => Except.error "no tags", fun _ _ => Except.ok [1], fun _ => false,
        fun _ => true, fun _ => Except.ok [], fun _ => "h", []⟩ : Env) [] []).map
      (fun res => ⟨res.lockfile, res.networkCalls, res.cacheWrites,
        ("a", []) :: res.installed⟩) :=
  per_dep_isolation_except_cache_io.1 _ ⟨"a", "latest", "o/r", none⟩ [] [] "no tags" rfl

/-- C8 counterexample: a cache-write failure on dependency `a` aborts the
entire install run — dependency `b` is never processed and no lockfile is
written — instead of aborting only `a` and continuing. -/
theorem cache_write_failure_aborts_run_cex :
    installRun
      ⟨fun _ => Except.ok "v1.0.0", fun _ _ => Except.ok [3], fun _ => false,
        fun n => decide (n ≠ "a"), fun _ => Except.ok [], fun _ => "h", []⟩
      ⟨some ".", [⟨"a", "latest", "o/r", none⟩, ⟨"b", "latest", "o/r", none⟩]⟩ [] =
    Except.error (RunAbort.ioWrite "a.zip") := by
  decide

/-- C9: at the failing input (installed dependency `create-block-theme`),
`remove` deletes the dependency from the manifest but leaves the lockfile
entry and the installed plugin files in place — no cascade happens,
contradicting the claim (and the repository's own `test_remove_command`,
which asserts the plugin directory is deleted). -/
theorem remove_no_cascade :
    removeCommand
      ⟨⟨some ".", [⟨"create-block-theme", "1.8.0", "WordPress/create-block-theme", none⟩]⟩,
        [⟨"create-block-theme", "v1.8.0", "WordPress/create-block-theme", "h"⟩],
        [("create-block-theme", [[PathComp.normal "style.css"]])]⟩ "create-block-theme" =
    (⟨⟨some ".", []⟩, [⟨"create-block-theme", "v1.8.0", "WordPress/create-block-theme", "h"⟩],
      [("create-block-theme", [[PathComp.normal "style.css"]])]⟩, true) := by
  decide

/-- C10: `add` matches existing dependency names after trimming and
lowercasing (any matching old entry is replaced by the new trimmed entry),
whereas `remove` matches by exact string equality (an entry whose name
differs from the argument survives); hence removing `foo` from a manifest
holding `Foo` reports not-found and leaves everything unchanged, while
re-adding `foo` replaces `Foo`. -/
theorem add_fold_remove_exact :
    (∀ (cfg : Config) (name version repo : String) (tok : Option String) (d : Dependency),
       d ∈ (addDependency cfg name version repo tok).1.dependencies →
       normalizeName d.name = normalizeName name →
       d = ⟨trimStr name, trimStr version, trimStr repo, tok⟩)
  ∧ (∀ (st : ProjectState) (name : String) (d : Dependency),
       d ∈ st.manifest.dependencies → d.name ≠ name →
       d ∈ ((removeCommand st name).1).manifest.dependencies)
  ∧ removeCommand ⟨⟨some ".", [⟨"Foo", "1.0.0", "o/r", none⟩]⟩, [], []⟩ "foo" =
      (⟨⟨some ".", [⟨"Foo", "1.0.0", "o/r", none⟩]⟩, [], []⟩, false)
  ∧ (addDependency ⟨some ".", [⟨"Foo", "1.0.0", "o/r", none⟩]⟩ "foo" "2.0.0" "o/r"
      none).1.dependencies = [⟨"foo", "2.0.0", "o/r", none⟩] := by
  refine ⟨?_, ?_, by decide, by decide⟩
  · intro cfg name version repo tok d hd hnorm
    unfold addDependency at hd
    simp only at hd
    rcases List.mem_append.1 hd with hf | hs
    · exfalso
      have hfilt := List.of_mem_filter hf
      exact absurd hnorm (of_decide_eq_true hfilt)
    · exact List.mem_singleton.1 hs
  · intro st name d hd hne
    exact List.mem_filter.2 ⟨hd, by simp [hne]⟩

/-- C10 witness: the two matching rules applied to concrete manifests. -/
theorem add_fold_remove_exact_witness :
    (⟨"Bar", "1.0.0", "o/r", none⟩ : Dependency) ∈
      ((removeCommand ⟨⟨some ".", [⟨"Bar", "1.0.0", "o/r", none⟩]⟩, [], []⟩
        "bar").1).manifest.dependencies
  ∧ (⟨"foo", "2.0.0", "o/r", none⟩ : Dependency) =
      ⟨trimStr "foo", trimStr "2.0.0", trimStr "o/r", none⟩ :=
  ⟨add_fold_remove_exact.2.1 ⟨⟨some ".", [⟨"Bar", "1.0.0", "o/r", none⟩]⟩, [], []⟩ "bar"
     ⟨"Bar", "1.0.0", "o/r", none⟩ (by decide) (by decide),
   add_fold_remove_exact.1 ⟨some ".", [⟨"Foo", "1.0.0", "o/r", none⟩]⟩ "foo" "2.0.0" "o/r"
     none ⟨"foo", "2.0.0", "o/r", none⟩ (by decide) (by decide)⟩

end Wdm
